import Mathlib

/-!
Shallow embedding of the summary aggregation engine of `src/web/app.js`:
occurrence collection (lines 251-284), `filterOccurrences` (lines 287-340),
the threshold options object (lines 215-229) and the two production filter
calls (lines 342-358).  JS numbers are modelled as rationals, JS objects
with dynamic string keys as insertion-ordered association lists (JS string
keys enumerate in insertion order), and the stable `Array.prototype.sort`
as insertion sort, which realises the unique stable order for a comparator.
-/

namespace Darkvision

variable {α β : Type}

/-- JS confidence scores, modelled as rationals. -/
abbrev Score := ℚ

/-- `face.identity`: an optional name and a confidence score. -/
structure Identity where
  name : Option String
  score : Score
  deriving DecidableEq

/-- One entry of `image.analysis.face_detection`.  The three provenance
fields are absent on input and written by the collector. -/
structure FaceDetection where
  identity : Option Identity
  image_id : Option String
  image_url : Option String
  timecode : Option Score
  deriving DecidableEq

/-- One entry of `image.analysis.image_keywords`; `cls` is the JS field
`class` (a reserved word in Lean). -/
structure KeywordDetection where
  cls : String
  score : Score
  image_id : Option String
  image_url : Option String
  timecode : Option Score
  deriving DecidableEq

/-- The `analysis` object of an image document. -/
structure Analysis where
  face_detection : Option (List FaceDetection)
  image_keywords : Option (List KeywordDetection)
  deriving DecidableEq

/-- An image (frame) document as read by the summary endpoint. -/
structure Image where
  _id : String
  frame_timecode : Option Score
  analysis : Option Analysis
  deriving DecidableEq

/-- A JS object mapping string keys to occurrence arrays, in insertion
order of the keys. -/
abbrev Groups (α : Type) := List (String × List α)

/-- The `accessor` argument of `filterOccurrences`: a score function plus
the thresholds (JS numbers, so integral thresholds are `Int`). -/
structure Accessor (α : Type) where
  score : α → Score
  minimumOccurrence : Int
  minimumScore : Score
  minimumScoreOccurrence : Int
  maximumOccurrenceCount : Option Int

/-- The `numberOfOccurrencesAboveThreshold` count (app.js 295-300):
occurrences whose score is at least `minimumScore`. -/
def countAboveThreshold (a : Accessor α) (g : List α) : Nat :=
  g.countP (fun o => decide (a.minimumScore ≤ a.score o))

/-- The `keepIt` decision for one key (app.js 289-308): enough
occurrences, and enough occurrences above the score bar. -/
def keepIt (a : Accessor α) (g : List α) : Bool :=
  if a.minimumOccurrence ≤ (g.length : Int) then
    decide (a.minimumScoreOccurrence ≤ (countAboveThreshold a g : Int))
  else false

/-- Descending order induced by a score function (the JS comparator
`(x, y) => score(y) - score(x)`); ties relate both ways, so a stable
sort keeps their original relative order. -/
def byScoreDesc (f : α → Score) : α → α → Prop := fun x y => f y ≤ f x

instance (f : α → Score) : DecidableRel (byScoreDesc f) :=
  fun x y => inferInstanceAs (Decidable (f y ≤ f x))

instance (f : α → Score) : IsTotal α (byScoreDesc f) :=
  ⟨fun x y => le_total (f y) (f x)⟩

instance (f : α → Score) : IsTrans α (byScoreDesc f) :=
  ⟨fun _ _ _ h1 h2 => le_trans h2 h1⟩

/-- One key's occurrence array sorted best score first
(`occurrences[property].sort(...)`, app.js 313-316); `Array.prototype.sort`
is stable, and insertion sort realises the unique stable descending order. -/
def sortOccurrences (a : Accessor α) (g : List α) : List α :=
  List.insertionSort (byScoreDesc a.score) g

/-- The keep/drop pass over `Object.keys(occurrences)` (app.js 288-321):
a dropped key is deleted from the map, a kept key retains only the single
best-scoring occurrence (`.slice(0, 1)` after the sort). -/
def filterGroups (a : Accessor α) (groups : Groups α) : Groups α :=
  groups.filterMap (fun p =>
    if keepIt a p.2 then some (p.1, (sortOccurrences a p.2).take 1) else none)

/-- Score of a result entry, read from `occurrences[0]` by the final
comparator (app.js 330-333).  Entries built by the keep/drop pass on the
app's groups always hold exactly one occurrence; the `0` default is never
read there. -/
def entryScore (a : Accessor α) (p : String × List α) : Score :=
  match p.2 with
  | [] => 0
  | o :: _ => a.score o

/-- `result.slice(0, n)` for a JS number `n` (app.js 336): a negative
end index counts from the end of the array. -/
def jsSliceZero (n : Int) (l : List β) : List β :=
  if n < 0 then l.take ((l.length : Int) + n).toNat else l.take n.toNat

/-- The truncation step (app.js 335-337): the cap applies only when
`accessor.maximumOccurrenceCount` is truthy (present and nonzero) and
the result is longer than the cap. -/
def applyCap (cap : Option Int) (l : List β) : List β :=
  match cap with
  | none => l
  | some n => if n ≠ 0 ∧ n < (l.length : Int) then jsSliceZero n l else l

/-- `filterOccurrences(occurrences, accessor)` (app.js 287-340): keep/drop
pass, result array assembled in surviving key order, stable sort by
retained score descending, optional truncation.  The JS result objects
carry only the occurrence array; the key is kept here alongside it so the
output can be specified per key. -/
def filterOccurrences (groups : Groups α) (a : Accessor α) : Groups α :=
  applyCap a.maximumOccurrenceCount
    (List.insertionSort (byScoreDesc (entryScore a)) (filterGroups a groups))

/-- Request context used to build display URLs: `req.protocol` and
`req.hostname`. -/
structure ReqCtx where
  protocol : String
  hostname : String
  deriving DecidableEq

/-- The display URL written for a frame (app.js 267 and 280). -/
def frameUrl (req : ReqCtx) (id : String) : String :=
  req.protocol ++ "://" ++ req.hostname ++ "/images/image/" ++ id ++ ".jpg"

/-- JS truthiness of `face.identity && face.identity.name` (app.js 261):
the identity and its name must be present and the name non-empty. -/
def truthyFaceName (f : FaceDetection) : Option String :=
  match f.identity with
  | none => none
  | some i =>
    match i.name with
    | none => none
    | some n => if n = "" then none else some n

/-- `map[key].push(value)` with creation on first use (app.js 262-265 and
275-278): append to the existing group, else add a new group at the end. -/
def pushOcc : Groups α → String → α → Groups α
  | [], k, v => [(k, [v])]
  | p :: ps, k, v =>
    if p.1 = k then (p.1, p.2 ++ [v]) :: ps else p :: pushOcc ps k v

/-- The provenance fields written onto a grouped face (app.js 266-268);
the pushed array element is the same object, so the group sees them too. -/
def decorateFace (req : ReqCtx) (img : Image) (f : FaceDetection) : FaceDetection :=
  ⟨f.identity, some img._id, some (frameUrl req img._id), img.frame_timecode⟩

/-- The provenance fields written onto a grouped keyword (app.js 279-281). -/
def decorateKeyword (req : ReqCtx) (img : Image) (k : KeywordDetection) : KeywordDetection :=
  ⟨k.cls, k.score, some img._id, some (frameUrl req img._id), img.frame_timecode⟩

/-- The face array iterated for an image; absent `analysis` or
`analysis.face_detection` is skipped (app.js 259). -/
def facesOf (img : Image) : List FaceDetection :=
  match img.analysis with
  | none => []
  | some an => an.face_detection.getD []

/-- The keyword array iterated for an image (app.js 273). -/
def keywordsOf (img : Image) : List KeywordDetection :=
  match img.analysis with
  | none => []
  | some an => an.image_keywords.getD []

/-- The `face_detection.forEach` body (app.js 260-270): a face with a
truthy identity name is decorated and pushed into its name's group; any
other face is left untouched.  Returns the groups and the array as it
stands after the loop (the mutated face objects). -/
def processFaces (req : ReqCtx) (img : Image) :
    Groups FaceDetection × List FaceDetection → List FaceDetection →
    Groups FaceDetection × List FaceDetection
  | st, [] => st
  | st, f :: fs =>
    match truthyFaceName f with
    | some n =>
      processFaces req img
        (pushOcc st.1 n (decorateFace req img f), st.2 ++ [decorateFace req img f]) fs
    | none => processFaces req img (st.1, st.2 ++ [f]) fs

/-- The `image_keywords.forEach` body (app.js 274-282): every keyword is
decorated and pushed into its class's group, unconditionally. -/
def processKeywords (req : ReqCtx) (img : Image) :
    Groups KeywordDetection × List KeywordDetection → List KeywordDetection →
    Groups KeywordDetection × List KeywordDetection
  | st, [] => st
  | st, k :: ks =>
    processKeywords req img
      (pushOcc st.1 k.cls (decorateKeyword req img k), st.2 ++ [decorateKeyword req img k]) ks

/-- An image document after the collector's loop: the same document with
its detection arrays holding the (possibly decorated) objects. -/
def mutatedImage (img : Image) (faces : List FaceDetection)
    (kws : List KeywordDetection) : Image :=
  match img.analysis with
  | none => img
  | some an =>
    ⟨img._id, img.frame_timecode,
      some ⟨an.face_detection.map (fun _ => faces),
            an.image_keywords.map (fun _ => kws)⟩⟩

/-- One step of `images.forEach` (app.js 258-284), threading the two group
maps and accumulating the images as they stand after the iteration. -/
def collectImage (req : ReqCtx)
    (st : Groups FaceDetection × Groups KeywordDetection × List Image)
    (img : Image) : Groups FaceDetection × Groups KeywordDetection × List Image :=
  let pf := processFaces req img (st.1, []) (facesOf img)
  let pk := processKeywords req img (st.2.1, []) (keywordsOf img)
  (pf.1, pk.1, st.2.2 ++ [mutatedImage img pf.2 pk.2])

/-- The whole collection loop (app.js 254-284): builds
`peopleNameToOccurrences` and `keywordToOccurrences`, and also returns the
input image documents as they stand afterwards (the loop writes provenance
fields into them). -/
def collectOccurrences (req : ReqCtx) (images : List Image) :
    Groups FaceDetection × Groups KeywordDetection × List Image :=
  images.foldl (collectImage req) ([], [], [])

/-- The threshold object of the summary endpoint (app.js 217-229). -/
structure SummaryOptions where
  minimumFaceOccurrence : Int
  minimumFaceScore : Score
  minimumFaceScoreOccurrence : Int
  minimumLabelOccurrence : Int
  minimumLabelScore : Score
  minimumLabelScoreOccurrence : Int
  maximumLabelCount : Int
  minimumKeywordOccurrence : Int
  minimumKeywordScore : Score
  minimumKeywordScoreOccurrence : Int
  maximumKeywordCount : Int

/-- The literal `options` object (app.js 217-229). -/
def options : SummaryOptions :=
  ⟨3, 0.85, 2, 5, 0.70, 1, 5, 1, 0.60, 1, 5⟩

/-- The accessor of the face filter call (app.js 343-348): face
thresholds, no `maximumOccurrenceCount`.  JS `face.identity.score` would
throw on a missing identity; grouped faces always carry one, so the `0`
default is never read in the app. -/
def faceAccessor : Accessor FaceDetection :=
  ⟨fun f =>
    match f.identity with
    | some i => i.score
    | none => 0,
   options.minimumFaceOccurrence, options.minimumFaceScore,
   options.minimumFaceScoreOccurrence, none⟩

/-- The accessor of the keyword filter call (app.js 352-358): it reads
the `Keyword` options, not the `Label` ones. -/
def keywordAccessor : Accessor KeywordDetection :=
  ⟨fun k => k.score, options.minimumKeywordOccurrence, options.minimumKeywordScore,
   options.minimumKeywordScoreOccurrence, some options.maximumKeywordCount⟩

/-- The summary pipeline after the store fetches (app.js 251-364):
collect, then filter faces and keywords with the production accessors. -/
def summarizeAnalysis (req : ReqCtx) (images : List Image) :
    Groups FaceDetection × Groups KeywordDetection :=
  let c := collectOccurrences req images
  (filterOccurrences c.1 faceAccessor, filterOccurrences c.2.1 keywordAccessor)

/-- Erase the provenance fields the collector writes (`image_id`,
`image_url`, `timecode`); used to state what the mutation does not touch. -/
def stripFace (f : FaceDetection) : FaceDetection :=
  ⟨f.identity, none, none, none⟩

/-- Erase the provenance fields of a keyword detection. -/
def stripKeyword (k : KeywordDetection) : KeywordDetection :=
  ⟨k.cls, k.score, none, none, none⟩

/-- Erase the provenance fields of every detection of an image. -/
def stripImage (img : Image) : Image :=
  match img.analysis with
  | none => img
  | some an =>
    ⟨img._id, img.frame_timecode,
      some ⟨an.face_detection.map (fun l => l.map stripFace),
            an.image_keywords.map (fun l => l.map stripKeyword)⟩⟩

/-- Total number of occurrences stored across all groups of a map. -/
def sumLens (gs : Groups α) : Nat := (gs.map (fun p => p.2.length)).sum

/-- What the face loop does to one face object of the input array: a face
with a truthy identity name receives the provenance fields, any other
face is left untouched. -/
def mutFace (req : ReqCtx) (img : Image) (f : FaceDetection) : FaceDetection :=
  match truthyFaceName f with
  | some _ => decorateFace req img f
  | none => f

/-! ### Basic lemmas about the filter -/

lemma keepIt_iff (a : Accessor α) (g : List α) :
    keepIt a g = true ↔
      a.minimumOccurrence ≤ (g.length : Int) ∧
        a.minimumScoreOccurrence ≤ (countAboveThreshold a g : Int) := by
  unfold keepIt
  by_cases h : a.minimumOccurrence ≤ (g.length : Int) <;> simp [h]

lemma mem_filterGroups {a : Accessor α} {groups : Groups α} {e : String × List α} :
    e ∈ filterGroups a groups ↔
      ∃ p ∈ groups, keepIt a p.2 = true ∧ e = (p.1, (sortOccurrences a p.2).take 1) := by
  unfold filterGroups
  rw [List.mem_filterMap]
  constructor
  · rintro ⟨p, hp, hfe⟩
    by_cases hk : keepIt a p.2 = true
    · refine ⟨p, hp, hk, ?_⟩
      rw [if_pos hk] at hfe
      exact (Option.some.injEq _ _ ▸ hfe).symm
    · rw [if_neg hk] at hfe
      cases hfe
  · rintro ⟨p, hp, hk, he⟩
    exact ⟨p, hp, by rw [if_pos hk, he]⟩

lemma eq_of_mem_keys_nodup {l : Groups α} (hnd : (l.map Prod.fst).Nodup)
    {k : String} {g g' : List α} (h1 : (k, g) ∈ l) (h2 : (k, g') ∈ l) : g = g' := by
  induction l with
  | nil => cases h1
  | cons p ps ih =>
    rw [List.map_cons, List.nodup_cons] at hnd
    rcases List.mem_cons.mp h1 with h1 | h1 <;> rcases List.mem_cons.mp h2 with h2 | h2
    · rw [← h2] at h1
      exact congrArg Prod.snd h1
    · exfalso
      apply hnd.1
      rw [show p.1 = k from congrArg Prod.fst h1.symm]
      exact List.mem_map.mpr ⟨(k, g'), h2, rfl⟩
    · exfalso
      apply hnd.1
      rw [show p.1 = k from congrArg Prod.fst h2.symm]
      exact List.mem_map.mpr ⟨(k, g), h1, rfl⟩
    · exact ih hnd.2 h1 h2

lemma mem_keys_filterGroups_iff {a : Accessor α} {groups : Groups α}
    (hnd : (groups.map Prod.fst).Nodup) {k : String} {g : List α}
    (hg : (k, g) ∈ groups) :
    k ∈ (filterGroups a groups).map Prod.fst ↔ keepIt a g = true := by
  constructor
  · intro hk
    obtain ⟨e, he, hek⟩ := List.mem_map.mp hk
    obtain ⟨p, hp, hkeep, hep⟩ := mem_filterGroups.mp he
    have hpk : p.1 = k := by rw [hep] at hek; exact hek
    have hmem : (k, p.2) ∈ groups := by rw [← hpk]; exact hp
    rw [← eq_of_mem_keys_nodup hnd hmem hg]
    exact hkeep
  · intro hkeep
    have hmem : (k, (sortOccurrences a g).take 1) ∈ filterGroups a groups :=
      mem_filterGroups.mpr ⟨(k, g), hg, hkeep, rfl⟩
    exact List.mem_map.mpr ⟨_, hmem, rfl⟩

lemma applyCap_sublist (cap : Option Int) (l : List β) : (applyCap cap l).Sublist l := by
  cases cap with
  | none => exact List.Sublist.refl l
  | some n =>
    show (if n ≠ 0 ∧ n < (l.length : Int) then jsSliceZero n l else l).Sublist l
    by_cases h : n ≠ 0 ∧ n < (l.length : Int)
    · rw [if_pos h]
      unfold jsSliceZero
      by_cases hn : n < 0
      · rw [if_pos hn]; exact List.take_sublist _ _
      · rw [if_neg hn]; exact List.take_sublist _ _
    · rw [if_neg h]

lemma mem_filterOccurrences {groups : Groups α} {a : Accessor α} {e : String × List α}
    (he : e ∈ filterOccurrences groups a) :
    ∃ p ∈ groups, keepIt a p.2 = true ∧ e = (p.1, (sortOccurrences a p.2).take 1) := by
  unfold filterOccurrences at he
  have h1 : e ∈ List.insertionSort (byScoreDesc (entryScore a)) (filterGroups a groups) :=
    (applyCap_sublist _ _).subset he
  have h2 : e ∈ filterGroups a groups :=
    ((List.perm_insertionSort _ _).mem_iff).mp h1
  exact mem_filterGroups.mp h2

lemma keys_filterOccurrences_none {groups : Groups α} {a : Accessor α}
    (h : a.maximumOccurrenceCount = none) (k : String) :
    k ∈ (filterOccurrences groups a).map Prod.fst ↔
      k ∈ (filterGroups a groups).map Prod.fst := by
  unfold filterOccurrences
  rw [h]
  show k ∈ (List.insertionSort (byScoreDesc (entryScore a)) (filterGroups a groups)).map Prod.fst ↔ _
  exact ((List.perm_insertionSort (byScoreDesc (entryScore a)) (filterGroups a groups)).map
    Prod.fst).mem_iff

lemma take_one_sortOccurrences (a : Accessor α) (g : List α) (hne : g ≠ []) :
    ∃ m l1 l2, (sortOccurrences a g).take 1 = [m] ∧ g = l1 ++ m :: l2 ∧
      (∀ x ∈ g, a.score x ≤ a.score m) ∧ (∀ x ∈ l1, a.score x < a.score m) := by
  induction g with
  | nil => exact absurd rfl hne
  | cons x xs ih =>
    rcases eq_or_ne xs [] with hxs | hxs
    · subst hxs
      refine ⟨x, [], [], rfl, rfl, ?_, ?_⟩
      · intro y hy
        rw [List.mem_singleton] at hy
        rw [hy]
      · intro y hy
        cases hy
    · obtain ⟨m, l1, l2, htake, hsplit, hmax, hstrict⟩ := ih hxs
      have hsort : ∃ rest, List.insertionSort (byScoreDesc a.score) xs = m :: rest := by
        cases hs : List.insertionSort (byScoreDesc a.score) xs with
        | nil =>
          exfalso
          have hperm := List.perm_insertionSort (byScoreDesc a.score) xs
          rw [hs] at hperm
          exact hxs hperm.symm.eq_nil
        | cons y rest =>
          have hy : y = m := by
            have h1 := htake
            unfold sortOccurrences at h1
            rw [hs] at h1
            simpa using h1
          subst hy
          exact ⟨rest, rfl⟩
      obtain ⟨rest, hrest⟩ := hsort
      by_cases hc : a.score m ≤ a.score x
      · refine ⟨x, [], xs, ?_, rfl, ?_, ?_⟩
        · show (List.insertionSort (byScoreDesc a.score) (x :: xs)).take 1 = [x]
          rw [List.insertionSort, hrest, List.orderedInsert]
          simp only [byScoreDesc]
          rw [if_pos hc]
          rfl
        · intro y hy
          rcases List.mem_cons.mp hy with h | h
          · rw [h]
          · exact le_trans (hmax y h) hc
        · intro y hy
          cases hy
      · have hlt : a.score x < a.score m := lt_of_not_le hc
        refine ⟨m, x :: l1, l2, ?_, ?_, ?_, ?_⟩
        · show (List.insertionSort (byScoreDesc a.score) (x :: xs)).take 1 = [m]
          rw [List.insertionSort, hrest, List.orderedInsert]
          simp only [byScoreDesc]
          rw [if_neg hc]
          rfl
        · rw [List.cons_append, hsplit]
        · intro y hy
          rcases List.mem_cons.mp hy with h | h
          · rw [h]; exact le_of_lt hlt
          · exact hmax y h
        · intro y hy
          rcases List.mem_cons.mp hy with h | h
          · rw [h]; exact hlt
          · exact hstrict y h

lemma mem_occ_filterOccurrences {groups : Groups α} {a : Accessor α}
    {e : String × List α} (he : e ∈ filterOccurrences groups a) {x : α} (hx : x ∈ e.2) :
    ∃ p ∈ groups, p.1 = e.1 ∧ x ∈ p.2 := by
  obtain ⟨p, hp, _, hep⟩ := mem_filterOccurrences he
  refine ⟨p, hp, by rw [hep], ?_⟩
  rw [hep] at hx
  have h1 : x ∈ sortOccurrences a p.2 := List.take_subset 1 _ hx
  unfold sortOccurrences at h1
  exact ((List.perm_insertionSort _ _).mem_iff).mp h1

/-! ### Stability of the final sort: score classes are preserved -/

lemma filter_orderedInsert_class (f : α → Score) (c : Score) (x : α) (l : List α) :
    (List.orderedInsert (byScoreDesc f) x l).filter (fun e => decide (f e = c)) =
      if f x = c then x :: l.filter (fun e => decide (f e = c))
      else l.filter (fun e => decide (f e = c)) := by
  induction l with
  | nil => by_cases h : f x = c <;> simp [List.orderedInsert, h]
  | cons y ys ih =>
    rw [List.orderedInsert]
    by_cases hr : byScoreDesc f x y
    · rw [if_pos hr]
      by_cases hx : f x = c <;> simp [List.filter_cons, hx]
    · rw [if_neg hr]
      have hlt : f x < f y := lt_of_not_le (by simpa [byScoreDesc] using hr)
      by_cases hy : f y = c
      · have hx : ¬ f x = c := by
          intro hc
          rw [hc, ← hy] at hlt
          exact lt_irrefl _ hlt
        simp [List.filter_cons, hy, hx, ih]
      · by_cases hx : f x = c <;> simp [List.filter_cons, hy, hx, ih]

lemma filter_insertionSort_class (f : α → Score) (c : Score) (l : List α) :
    (List.insertionSort (byScoreDesc f) l).filter (fun e => decide (f e = c)) =
      l.filter (fun e => decide (f e = c)) := by
  induction l with
  | nil => rfl
  | cons x xs ih =>
    rw [List.insertionSort, filter_orderedInsert_class, ih]
    by_cases hx : f x = c <;> simp [List.filter_cons, hx]

lemma sorted_filterOccurrences (groups : Groups α) (a : Accessor α) :
    List.Sorted (byScoreDesc (entryScore a)) (filterOccurrences groups a) :=
  List.Pairwise.sublist (applyCap_sublist _ _)
    (List.sorted_insertionSort (byScoreDesc (entryScore a)) (filterGroups a groups))

lemma applyCap_pos {l : List β} {n : Int} (hn : 1 ≤ n) :
    applyCap (some n) l = l.take n.toNat := by
  show (if n ≠ 0 ∧ n < (l.length : Int) then jsSliceZero n l else l) = l.take n.toNat
  by_cases h : n ≠ 0 ∧ n < (l.length : Int)
  · rw [if_pos h]
    unfold jsSliceZero
    rw [if_neg (by omega)]
  · rw [if_neg h]
    have hlen : (l.length : Int) ≤ n := by
      rcases not_and_or.mp h with h1 | h2
      · exact absurd (by omega) h1
      · omega
    exact (List.take_of_length_le (by omega)).symm

/-! ### Monotonicity of the keep decision -/

lemma countAboveThreshold_congr {a b : Accessor α} (hs : b.score = a.score)
    (hm : b.minimumScore = a.minimumScore) (g : List α) :
    countAboveThreshold b g = countAboveThreshold a g := by
  unfold countAboveThreshold
  rw [hs, hm]

lemma countAboveThreshold_mono {a b : Accessor α} (hs : b.score = a.score)
    (hm : a.minimumScore ≤ b.minimumScore) (g : List α) :
    countAboveThreshold b g ≤ countAboveThreshold a g := by
  unfold countAboveThreshold
  rw [hs]
  apply List.countP_mono_left
  intro x _ hx
  rw [decide_eq_true_eq] at hx ⊢
  exact le_trans hm hx

lemma keys_filterGroups_mono {a b : Accessor α}
    (h : ∀ g : List α, keepIt b g = true → keepIt a g = true)
    (groups : Groups α) (k : String) (hk : k ∈ (filterGroups b groups).map Prod.fst) :
    k ∈ (filterGroups a groups).map Prod.fst := by
  obtain ⟨e, he, hek⟩ := List.mem_map.mp hk
  obtain ⟨p, hp, hkeep, hep⟩ := mem_filterGroups.mp he
  have hmem : (p.1, (sortOccurrences a p.2).take 1) ∈ filterGroups a groups :=
    mem_filterGroups.mpr ⟨p, hp, h _ hkeep, rfl⟩
  refine List.mem_map.mpr ⟨_, hmem, ?_⟩
  rw [← hek, hep]

/-! ### Lemmas about the collection loop -/

lemma truthyFaceName_decorateFace (req : ReqCtx) (img : Image) (f : FaceDetection) :
    truthyFaceName (decorateFace req img f) = truthyFaceName f := rfl

lemma pushOcc_all {P : α → Prop} (k : String) (v : α) (hv : P v) :
    ∀ (gs : Groups α), (∀ p ∈ gs, ∀ x ∈ p.2, P x) →
      ∀ p ∈ pushOcc gs k v, ∀ x ∈ p.2, P x := by
  intro gs
  induction gs with
  | nil =>
    intro _ p hp x hx
    simp only [pushOcc, List.mem_singleton] at hp
    subst hp
    simp only [List.mem_singleton] at hx
    subst hx
    exact hv
  | cons q qs ih =>
    intro hall p hp x hx
    simp only [pushOcc] at hp
    by_cases hq : q.1 = k
    · rw [if_pos hq] at hp
      rcases List.mem_cons.mp hp with hpe | hp'
      · rw [hpe] at hx
        rcases List.mem_append.mp hx with h | h
        · exact hall q (List.mem_cons_self q qs) x h
        · rw [List.mem_singleton] at h
          rw [h]
          exact hv
      · exact hall p (List.mem_cons_of_mem q hp') x hx
    · rw [if_neg hq] at hp
      rcases List.mem_cons.mp hp with hpe | hp'
      · rw [hpe] at hx
        exact hall q (List.mem_cons_self q qs) x hx
      · exact ih (fun r hr => hall r (List.mem_cons_of_mem q hr)) p hp' x hx

lemma processFaces_all (req : ReqCtx) (img : Image) :
    ∀ (fs : List FaceDetection) (st : Groups FaceDetection × List FaceDetection),
      (∀ p ∈ st.1, ∀ x ∈ p.2, truthyFaceName x ≠ none) →
      ∀ p ∈ (processFaces req img st fs).1, ∀ x ∈ p.2, truthyFaceName x ≠ none := by
  intro fs
  induction fs with
  | nil => intro st h; simpa only [processFaces] using h
  | cons f fs ih =>
    intro st h
    simp only [processFaces]
    split
    · rename_i n htn
      refine ih _
        (@pushOcc_all _ (fun x => truthyFaceName x ≠ none) n (decorateFace req img f) ?_ st.1 h)
      show truthyFaceName (decorateFace req img f) ≠ none
      rw [truthyFaceName_decorateFace, htn]
      simp
    · exact ih _ h

lemma collect_faces_named (req : ReqCtx) :
    ∀ (images : List Image) (st : Groups FaceDetection × Groups KeywordDetection × List Image),
      (∀ p ∈ st.1, ∀ x ∈ p.2, truthyFaceName x ≠ none) →
      ∀ p ∈ (images.foldl (collectImage req) st).1, ∀ x ∈ p.2, truthyFaceName x ≠ none := by
  intro images
  induction images with
  | nil => intro st h; simpa using h
  | cons img imgs ih =>
    intro st h
    rw [List.foldl_cons]
    exact ih _ (processFaces_all req img (facesOf img) (st.1, []) h)

lemma sumLens_cons (p : String × List α) (gs : Groups α) :
    sumLens (p :: gs) = p.2.length + sumLens gs := by
  simp [sumLens]

lemma pushOcc_sumLens (gs : Groups α) (k : String) (v : α) :
    sumLens (pushOcc gs k v) = sumLens gs + 1 := by
  induction gs with
  | nil => simp [pushOcc, sumLens]
  | cons q qs ih =>
    simp only [pushOcc]
    by_cases hq : q.1 = k
    · rw [if_pos hq, sumLens_cons, sumLens_cons]
      simp [List.length_append]
      omega
    · rw [if_neg hq, sumLens_cons, sumLens_cons, ih]
      omega

lemma processKeywords_sumLens (req : ReqCtx) (img : Image) :
    ∀ (ks : List KeywordDetection) (g : Groups KeywordDetection) (acc : List KeywordDetection),
      sumLens (processKeywords req img (g, acc) ks).1 = sumLens g + ks.length := by
  intro ks
  induction ks with
  | nil => intro g acc; rfl
  | cons k ks ih =>
    intro g acc
    simp only [processKeywords]
    rw [ih, pushOcc_sumLens, List.length_cons]
    omega

lemma collect_keywords_sum (req : ReqCtx) :
    ∀ (images : List Image) (st : Groups FaceDetection × Groups KeywordDetection × List Image),
      sumLens (images.foldl (collectImage req) st).2.1 =
        sumLens st.2.1 + (images.map (fun i => (keywordsOf i).length)).sum := by
  intro images
  induction images with
  | nil => intro st; simp
  | cons img imgs ih =>
    intro st
    rw [List.foldl_cons, ih]
    have h : sumLens (collectImage req st img).2.1 =
        sumLens st.2.1 + (keywordsOf img).length :=
      processKeywords_sumLens req img (keywordsOf img) st.2.1 []
    rw [h, List.map_cons, List.sum_cons]
    omega

lemma processFaces_snd (req : ReqCtx) (img : Image) :
    ∀ (fs : List FaceDetection) (g : Groups FaceDetection) (acc : List FaceDetection),
      (processFaces req img (g, acc) fs).2 = acc ++ fs.map (mutFace req img) := by
  intro fs
  induction fs with
  | nil => intro g acc; simp [processFaces]
  | cons f fs ih =>
    intro g acc
    simp only [processFaces]
    split
    · rename_i n htn
      rw [ih]
      simp [mutFace, htn]
    · rename_i htn
      rw [ih]
      simp [mutFace, htn]

lemma processKeywords_snd (req : ReqCtx) (img : Image) :
    ∀ (ks : List KeywordDetection) (g : Groups KeywordDetection) (acc : List KeywordDetection),
      (processKeywords req img (g, acc) ks).2 = acc ++ ks.map (decorateKeyword req img) := by
  intro ks
  induction ks with
  | nil => intro g acc; simp [processKeywords]
  | cons k ks ih =>
    intro g acc
    simp only [processKeywords]
    rw [ih]
    simp

lemma stripFace_mutFace (req : ReqCtx) (img : Image) (f : FaceDetection) :
    stripFace (mutFace req img f) = stripFace f := by
  unfold mutFace
  cases truthyFaceName f <;> rfl

lemma stripFace_comp (req : ReqCtx) (img : Image) :
    stripFace ∘ mutFace req img = stripFace :=
  funext (fun f => stripFace_mutFace req img f)

lemma stripKeyword_comp (req : ReqCtx) (img : Image) :
    stripKeyword ∘ decorateKeyword req img = stripKeyword :=
  funext (fun _ => rfl)

lemma stripImage_mutated (req : ReqCtx) (img : Image) (g0 : Groups FaceDetection)
    (k0 : Groups KeywordDetection) :
    stripImage (mutatedImage img
      (processFaces req img (g0, []) (facesOf img)).2
      (processKeywords req img (k0, []) (keywordsOf img)).2) = stripImage img := by
  have hf : (processFaces req img (g0, []) (facesOf img)).2 =
      (facesOf img).map (mutFace req img) :=
    processFaces_snd req img (facesOf img) g0 []
  have hk : (processKeywords req img (k0, []) (keywordsOf img)).2 =
      (keywordsOf img).map (decorateKeyword req img) :=
    processKeywords_snd req img (keywordsOf img) k0 []
  rw [hf, hk]
  cases han : img.analysis with
  | none => simp [mutatedImage, stripImage, han]
  | some an =>
    cases hfd : an.face_detection with
    | none =>
      cases hkw : an.image_keywords with
      | none => simp [mutatedImage, stripImage, han, hfd, hkw]
      | some lk =>
        simp [mutatedImage, stripImage, keywordsOf, han, hfd, hkw, List.map_map,
          stripKeyword_comp]
    | some lf =>
      cases hkw : an.image_keywords with
      | none =>
        simp [mutatedImage, stripImage, facesOf, han, hfd, hkw, List.map_map,
          stripFace_comp]
      | some lk =>
        simp [mutatedImage, stripImage, facesOf, keywordsOf, han, hfd, hkw, List.map_map,
          stripFace_comp, stripKeyword_comp]

lemma collect_images_strip (req : ReqCtx) :
    ∀ (images : List Image) (st : Groups FaceDetection × Groups KeywordDetection × List Image),
      ((images.foldl (collectImage req) st).2.2).map stripImage =
        (st.2.2).map stripImage ++ images.map stripImage := by
  intro images
  induction images with
  | nil => intro st; simp
  | cons img imgs ih =>
    intro st
    rw [List.foldl_cons, ih]
    have h22 : (collectImage req st img).2.2 =
        st.2.2 ++ [mutatedImage img
          (processFaces req img (st.1, []) (facesOf img)).2
          (processKeywords req img (st.2.1, []) (keywordsOf img)).2] := rfl
    rw [h22, List.map_append]
    simp [stripImage_mutated]

lemma applyCap_zero (l : List β) : applyCap (some 0) l = l := by
  show (if (0 : Int) ≠ 0 ∧ (0 : Int) < (l.length : Int) then jsSliceZero 0 l else l) = l
  rw [if_neg]
  simp

/-! ### The claims -/

/-- C1: `filterOccurrences` keeps a key exactly when its group clears both
bars: at least `minimumOccurrence` occurrences, and at least
`minimumScoreOccurrence` of them scoring at least `minimumScore`.  Keys
failing either bar are deleted by the keep/drop pass, and when no output
cap is configured the same characterisation holds of the returned sequence
itself. -/
theorem c1_kept_iff_bars {α : Type} (a : Accessor α) (groups : Groups α)
    (hnd : (groups.map Prod.fst).Nodup) (k : String) (g : List α)
    (hg : (k, g) ∈ groups) :
    (k ∈ (filterGroups a groups).map Prod.fst ↔
      a.minimumOccurrence ≤ (g.length : Int) ∧
        a.minimumScoreOccurrence ≤ (countAboveThreshold a g : Int)) ∧
    (a.maximumOccurrenceCount = none →
      (k ∈ (filterOccurrences groups a).map Prod.fst ↔
        a.minimumOccurrence ≤ (g.length : Int) ∧
          a.minimumScoreOccurrence ≤ (countAboveThreshold a g : Int))) := by
  constructor
  · rw [← keepIt_iff]
    exact @mem_keys_filterGroups_iff _ a groups hnd k g hg
  · intro hcap
    rw [keys_filterOccurrences_none hcap, ← keepIt_iff]
    exact @mem_keys_filterGroups_iff _ a groups hnd k g hg

/-- Witness for C1 at the spec's scenario 1: three occurrences, two of
them at or above 0.85, thresholds 2/0.85/2, so the key is kept. -/
theorem c1_kept_iff_bars_witness :
    ((([("alice", [(90:ℚ), 60, 95])] : Groups ℚ).map Prod.fst).Nodup ∧
      ("alice", [(90:ℚ), 60, 95]) ∈ ([("alice", [(90:ℚ), 60, 95])] : Groups ℚ)) ∧
    "alice" ∈ (filterGroups (⟨fun q => q, 2, 85, 2, none⟩ : Accessor ℚ)
      [("alice", [(90:ℚ), 60, 95])]).map Prod.fst :=
  ⟨⟨by decide, by decide⟩,
    ((c1_kept_iff_bars (⟨fun q => q, 2, 85, 2, none⟩ : Accessor ℚ)
        [("alice", [(90:ℚ), 60, 95])] (by decide) "alice"
        [(90:ℚ), 60, 95] (by decide)).1).mpr (by decide)⟩

/-- C2: every output entry of `filterOccurrences` retains exactly one
occurrence, namely the maximum-scoring occurrence of that key's original
group; under ties the first-encountered occurrence wins: the group splits
as `l1 ++ m :: l2` with every element of `l1` scoring strictly below `m`
and no element of the group scoring above `m`. -/
theorem c2_retained_single_max {α : Type} (a : Accessor α) (groups : Groups α)
    (hne : ∀ p ∈ groups, p.2 ≠ []) (e : String × List α)
    (he : e ∈ filterOccurrences groups a) :
    ∃ g m l1 l2, (e.1, g) ∈ groups ∧ e.2 = [m] ∧ g = l1 ++ m :: l2 ∧
      (∀ x ∈ g, a.score x ≤ a.score m) ∧ (∀ x ∈ l1, a.score x < a.score m) := by
  obtain ⟨p, hp, hk, hep⟩ := mem_filterOccurrences he
  obtain ⟨m, l1, l2, htake, hsplit, hmax, hstrict⟩ :=
    take_one_sortOccurrences a p.2 (hne p hp)
  refine ⟨p.2, m, l1, l2, ?_, ?_, hsplit, hmax, hstrict⟩
  · rw [hep]
    exact hp
  · rw [hep]
    exact htake

/-- Witness for C2 at the spec's scenario 1: the retained occurrence of
the kept key is 0.95, the group maximum. -/
theorem c2_retained_single_max_witness :
    ((∀ p ∈ ([("alice", [(90:ℚ), 60, 95])] : Groups ℚ), p.2 ≠ []) ∧
      ("alice", [(95:ℚ)]) ∈ filterOccurrences [("alice", [(90:ℚ), 60, 95])]
        (⟨fun q => q, 2, 85, 2, none⟩ : Accessor ℚ)) ∧
    (∃ g m l1 l2,
      ((("alice", [(95:ℚ)]) : String × List ℚ).1, g) ∈
        ([("alice", [(90:ℚ), 60, 95])] : Groups ℚ) ∧
      ((("alice", [(95:ℚ)]) : String × List ℚ).2 = [m]) ∧ g = l1 ++ m :: l2 ∧
      (∀ x ∈ g, x ≤ m) ∧ (∀ x ∈ l1, x < m)) :=
  ⟨⟨by decide, by decide⟩,
    c2_retained_single_max (⟨fun q => q, 2, 85, 2, none⟩ : Accessor ℚ)
      [("alice", [(90:ℚ), 60, 95])] (by decide) ("alice", [(95:ℚ)]) (by decide)⟩

/-- C3 fails on the code: the keyword filter call of the summary endpoint
reads the `Keyword` options (minimumOccurrence 1, minimumScore 0.60), not
the values 5 and 0.70 the claim states (those are the unused `Label`
options). -/
theorem c3_counterexample :
    ¬ (keywordAccessor.minimumOccurrence = 5 ∧ keywordAccessor.minimumScore = 0.70) := by
  decide

/-- C3 amended: the summary endpoint's face filter call uses
minimumOccurrence 3, minimumScore 0.85, minimumScoreOccurrence 2 and no
cap; its keyword filter call uses minimumOccurrence 1, minimumScore 0.60,
minimumScoreOccurrence 1 and cap 5; and the pipeline applies exactly these
two accessors. -/
theorem c3_production_thresholds :
    (faceAccessor.minimumOccurrence = 3 ∧ faceAccessor.minimumScore = 0.85 ∧
      faceAccessor.minimumScoreOccurrence = 2 ∧ faceAccessor.maximumOccurrenceCount = none) ∧
    (keywordAccessor.minimumOccurrence = 1 ∧ keywordAccessor.minimumScore = 0.60 ∧
      keywordAccessor.minimumScoreOccurrence = 1 ∧
      keywordAccessor.maximumOccurrenceCount = some 5) ∧
    (∀ (req : ReqCtx) (images : List Image),
      summarizeAnalysis req images =
        (filterOccurrences (collectOccurrences req images).1 faceAccessor,
         filterOccurrences (collectOccurrences req images).2.1 keywordAccessor)) :=
  ⟨⟨rfl, rfl, rfl, rfl⟩, ⟨rfl, rfl, rfl, rfl⟩, fun _ _ => rfl⟩

/-- C4 fails on the code: `filterOccurrences` performs no configuration
validation at all; with `minimumOccurrence = 0` it processes the groups
normally and returns a result instead of raising `ConfigurationError`. -/
theorem c4_counterexample :
    (⟨fun q => q, 0, 50, 1, none⟩ : Accessor ℚ).minimumOccurrence = 0 ∧
    filterOccurrences [("a", [(90:ℚ)])] (⟨fun q => q, 0, 50, 1, none⟩ : Accessor ℚ) =
      [("a", [(90:ℚ)])] :=
  ⟨rfl, by decide⟩

/-- C4 amended: the filter performs no threshold validation; a
non-positive `minimumOccurrence` is accepted, every group then trivially
clears the occurrence bar, and a key is kept exactly when it clears the
score-occurrence bar. -/
theorem c4_no_validation {α : Type} (a : Accessor α) (groups : Groups α)
    (hnd : (groups.map Prod.fst).Nodup) (k : String) (g : List α)
    (hg : (k, g) ∈ groups) (h0 : a.minimumOccurrence ≤ 0) :
    k ∈ (filterGroups a groups).map Prod.fst ↔
      a.minimumScoreOccurrence ≤ (countAboveThreshold a g : Int) := by
  rw [@mem_keys_filterGroups_iff _ a groups hnd k g hg, keepIt_iff]
  constructor
  · rintro ⟨_, h⟩
    exact h
  · intro h
    exact ⟨by omega, h⟩

/-- Witness for C4's amended statement: `minimumOccurrence = 0` together
with one scoring occurrence keeps the key. -/
theorem c4_no_validation_witness :
    ((⟨fun q => q, 0, 50, 1, none⟩ : Accessor ℚ).minimumOccurrence ≤ 0 ∧
      (([("a", [(90:ℚ)])] : Groups ℚ).map Prod.fst).Nodup) ∧
    "a" ∈ (filterGroups (⟨fun q => q, 0, 50, 1, none⟩ : Accessor ℚ)
      [("a", [(90:ℚ)])]).map Prod.fst :=
  ⟨⟨by decide, by decide⟩,
    (c4_no_validation (⟨fun q => q, 0, 50, 1, none⟩ : Accessor ℚ) [("a", [(90:ℚ)])]
      (by decide) "a" [(90:ℚ)] (by decide) (by decide)).mpr (by decide)⟩

/-- C5 fails on the code when the cap is 0: `maximumOccurrenceCount = 0`
is falsy in JS, so no truncation happens and one passing key yields a
result of length 1, contradicting "result length is at most N always". -/
theorem c5_counterexample :
    (⟨fun q => q, 1, 50, 1, some 0⟩ : Accessor ℚ).maximumOccurrenceCount = some 0 ∧
    (filterOccurrences [("a", [(90:ℚ)])]
      (⟨fun q => q, 1, 50, 1, some 0⟩ : Accessor ℚ)).length = 1 :=
  ⟨rfl, by decide⟩

/-- C5 amended: the returned sequence is always sorted by retained score
descending; the entries of any fixed retained score keep the relative
order of the filtering pass; and for a configured cap `N ≥ 1` the result
is exactly the first `N` entries of the sorted surviving sequence, hence
of length at most `N`.  (A cap of exactly 0 applies no truncation.) -/
theorem c5_sorted_stable_capped {α : Type} (groups : Groups α) (a : Accessor α) :
    List.Sorted (byScoreDesc (entryScore a)) (filterOccurrences groups a) ∧
    (∀ c : Score, ((filterOccurrences groups a).filter
        (fun e => decide (entryScore a e = c))).Sublist
      ((filterGroups a groups).filter (fun e => decide (entryScore a e = c)))) ∧
    (∀ N : Int, a.maximumOccurrenceCount = some N → 1 ≤ N →
      filterOccurrences groups a =
        (List.insertionSort (byScoreDesc (entryScore a)) (filterGroups a groups)).take N.toNat ∧
      (filterOccurrences groups a).length ≤ N.toNat) := by
  refine ⟨sorted_filterOccurrences groups a, ?_, ?_⟩
  · intro c
    have h1 : (filterOccurrences groups a).Sublist
        (List.insertionSort (byScoreDesc (entryScore a)) (filterGroups a groups)) :=
      applyCap_sublist _ _
    have h2 := List.Sublist.filter (fun e => decide (entryScore a e = c)) h1
    rwa [filter_insertionSort_class] at h2
  · intro N hcap hN
    have heq : filterOccurrences groups a =
        (List.insertionSort (byScoreDesc (entryScore a)) (filterGroups a groups)).take N.toNat := by
      unfold filterOccurrences
      rw [hcap]
      exact applyCap_pos hN
    refine ⟨heq, ?_⟩
    rw [heq, List.length_take]
    exact min_le_left _ _

/-- Witness for C5: two passing keys, cap 1, so the result is the best
entry only. -/
theorem c5_sorted_stable_capped_witness :
    filterOccurrences [("a", [(90:ℚ)]), ("b", [(99:ℚ)])]
        (⟨fun q => q, 1, 50, 1, some 1⟩ : Accessor ℚ) =
      (List.insertionSort
        (byScoreDesc (entryScore (⟨fun q => q, 1, 50, 1, some 1⟩ : Accessor ℚ)))
        (filterGroups (⟨fun q => q, 1, 50, 1, some 1⟩ : Accessor ℚ)
          [("a", [(90:ℚ)]), ("b", [(99:ℚ)])])).take (Int.toNat 1) ∧
    (filterOccurrences [("a", [(90:ℚ)]), ("b", [(99:ℚ)])]
        (⟨fun q => q, 1, 50, 1, some 1⟩ : Accessor ℚ)).length ≤ Int.toNat 1 :=
  (c5_sorted_stable_capped [("a", [(90:ℚ)]), ("b", [(99:ℚ)])]
    (⟨fun q => q, 1, 50, 1, some 1⟩ : Accessor ℚ)).2.2 1 rfl (by decide)

/-- C6: a face detection whose identity name is missing or empty is never
added to any face group and never occurs in any kept output over the
collected face groups, while every keyword detection is appended to its
class's group unconditionally: the keyword groups hold exactly as many
occurrences as there are keyword detections in the input frames. -/
theorem c6_unnamed_excluded (req : ReqCtx) (images : List Image) :
    (∀ p ∈ (collectOccurrences req images).1, ∀ f ∈ p.2, truthyFaceName f ≠ none) ∧
    (∀ (a : Accessor FaceDetection),
      ∀ e ∈ filterOccurrences (collectOccurrences req images).1 a,
        ∀ f ∈ e.2, truthyFaceName f ≠ none) ∧
    sumLens (collectOccurrences req images).2.1 =
      (images.map (fun i => (keywordsOf i).length)).sum := by
  have h1 : ∀ p ∈ (collectOccurrences req images).1, ∀ f ∈ p.2, truthyFaceName f ≠ none :=
    collect_faces_named req images ([], [], []) (by intro p hp; cases hp)
  refine ⟨h1, ?_, ?_⟩
  · intro a e he f hf
    obtain ⟨p, hp, _, hfp⟩ := mem_occ_filterOccurrences he hf
    exact h1 p hp f hfp
  · have h2 := collect_keywords_sum req images ([], [], [])
    simpa [collectOccurrences, sumLens] using h2

/-- Witness for C6: one frame with one keyword detection produces one
stored keyword occurrence. -/
theorem c6_unnamed_excluded_witness :
    sumLens (collectOccurrences ⟨"http", "h"⟩
        [⟨"i", none, some ⟨none, some [⟨"cat", (8:ℚ), none, none, none⟩]⟩⟩]).2.1 =
      ([(⟨"i", none, some ⟨none, some [⟨"cat", (8:ℚ), none, none, none⟩]⟩⟩ : Image)].map
        (fun i => (keywordsOf i).length)).sum :=
  (c6_unnamed_excluded ⟨"http", "h"⟩
    [⟨"i", none, some ⟨none, some [⟨"cat", (8:ℚ), none, none, none⟩]⟩⟩]).2.2

/-- C7: with the score function and the score-occurrence threshold fixed,
raising `minimumOccurrence` (other fields equal) never adds a kept key,
and raising `minimumScore` (other fields equal) never adds a kept key:
the kept-key set of the filtering pass is monotone non-increasing in each
threshold separately. -/
theorem c7_thresholds_monotone {α : Type} (groups : Groups α) (a b : Accessor α)
    (hs : b.score = a.score) (hso : b.minimumScoreOccurrence = a.minimumScoreOccurrence) :
    ((a.minimumOccurrence ≤ b.minimumOccurrence ∧ b.minimumScore = a.minimumScore) →
      ∀ k, k ∈ (filterGroups b groups).map Prod.fst →
        k ∈ (filterGroups a groups).map Prod.fst) ∧
    ((b.minimumOccurrence = a.minimumOccurrence ∧ a.minimumScore ≤ b.minimumScore) →
      ∀ k, k ∈ (filterGroups b groups).map Prod.fst →
        k ∈ (filterGroups a groups).map Prod.fst) := by
  constructor
  · rintro ⟨hocc, hms⟩ k hk
    refine keys_filterGroups_mono ?_ groups k hk
    intro g hkeep
    rw [keepIt_iff] at hkeep ⊢
    rw [countAboveThreshold_congr hs hms, hso] at hkeep
    exact ⟨le_trans hocc hkeep.1, hkeep.2⟩
  · rintro ⟨hocc, hms⟩ k hk
    refine keys_filterGroups_mono ?_ groups k hk
    intro g hkeep
    rw [keepIt_iff] at hkeep ⊢
    rw [hso, hocc] at hkeep
    have hcnt : countAboveThreshold b g ≤ countAboveThreshold a g :=
      countAboveThreshold_mono hs hms g
    exact ⟨hkeep.1, le_trans hkeep.2 (by exact_mod_cast hcnt)⟩

/-- Witness for C7: a key kept under the stricter occurrence threshold is
kept under the looser one. -/
theorem c7_thresholds_monotone_witness :
    "x" ∈ (filterGroups (⟨fun q => q, 1, 50, 1, none⟩ : Accessor ℚ)
      [("x", [(90:ℚ), 80])]).map Prod.fst :=
  (c7_thresholds_monotone [("x", [(90:ℚ), 80])]
      (⟨fun q => q, 1, 50, 1, none⟩ : Accessor ℚ)
      (⟨fun q => q, 2, 50, 1, none⟩ : Accessor ℚ) rfl rfl).1
    ⟨by decide, rfl⟩ "x" (by decide)

/-- C8 fails on the code: the collection loop writes `image_id`,
`image_url` and `timecode` onto the detection objects inside the input
records; a record holding one named face comes back changed. -/
theorem c8_counterexample :
    (collectOccurrences ⟨"http", "host"⟩
        [⟨"img1", none,
          some ⟨some [⟨some ⟨some "alice", (9:ℚ)⟩, none, none, none⟩], none⟩⟩]).2.2 ≠
      [⟨"img1", none,
        some ⟨some [⟨some ⟨some "alice", (9:ℚ)⟩, none, none, none⟩], none⟩⟩] := by
  decide

/-- C8 amended: the aggregation's only effect on the input records is
writing the three provenance fields (`image_id`, `image_url`, `timecode`)
onto the grouped detections: erasing those fields recovers the input
records exactly, so names, scores, classes and frame structure are
untouched. -/
theorem c8_strip_invariant (req : ReqCtx) (images : List Image) :
    ((collectOccurrences req images).2.2).map stripImage = images.map stripImage := by
  have h := collect_images_strip req images ([], [], [])
  simpa [collectOccurrences] using h

/-- C9: the filter is a pure deterministic function of its inputs: equal
group maps and equal accessor configurations produce equal output
sequences, ordering included. -/
theorem c9_deterministic {α : Type} (g1 g2 : Groups α) (a1 a2 : Accessor α)
    (hg : g1 = g2) (ha : a1 = a2) :
    filterOccurrences g1 a1 = filterOccurrences g2 a2 := by
  rw [hg, ha]

/-- Witness for C9 at a concrete input. -/
theorem c9_deterministic_witness :
    filterOccurrences [("a", [(1:ℚ)])] (⟨fun q => q, 1, 0, 1, none⟩ : Accessor ℚ) =
      filterOccurrences [("a", [(1:ℚ)])] (⟨fun q => q, 1, 0, 1, none⟩ : Accessor ℚ) :=
  c9_deterministic _ _ _ _ rfl rfl

/-- C10: a `maximumOccurrenceCount` of exactly 0 is falsy, so the filter
applies no truncation: the output is the whole sorted surviving sequence
and every key kept by the filtering pass appears in it. -/
theorem c10_cap_zero_no_truncation {α : Type} (groups : Groups α) (a : Accessor α)
    (h : a.maximumOccurrenceCount = some 0) :
    filterOccurrences groups a =
      List.insertionSort (byScoreDesc (entryScore a)) (filterGroups a groups) ∧
    ∀ k, k ∈ (filterGroups a groups).map Prod.fst →
      k ∈ (filterOccurrences groups a).map Prod.fst := by
  have heq : filterOccurrences groups a =
      List.insertionSort (byScoreDesc (entryScore a)) (filterGroups a groups) := by
    unfold filterOccurrences
    rw [h, applyCap_zero]
  refine ⟨heq, ?_⟩
  intro k hk
  rw [heq]
  exact (((List.perm_insertionSort (byScoreDesc (entryScore a))
    (filterGroups a groups)).map Prod.fst).mem_iff).mpr hk

/-- Witness for C10: cap 0 at a concrete input yields the untruncated
sorted survivors. -/
theorem c10_cap_zero_no_truncation_witness :
    filterOccurrences [("a", [(1:ℚ)])] (⟨fun q => q, 1, 0, 1, some 0⟩ : Accessor ℚ) =
      List.insertionSort
        (byScoreDesc (entryScore (⟨fun q => q, 1, 0, 1, some 0⟩ : Accessor ℚ)))
        (filterGroups (⟨fun q => q, 1, 0, 1, some 0⟩ : Accessor ℚ) [("a", [(1:ℚ)])]) :=
  (c10_cap_zero_no_truncation [("a", [(1:ℚ)])]
    (⟨fun q => q, 1, 0, 1, some 0⟩ : Accessor ℚ) rfl).1

end Darkvision
